import Mathlib

/-!
Verification of the `fresh` editor core against its specification.

The development shallowly embeds the parts of the source that the checked
claims are about:

* `src/src/ui/view_pipeline.rs` — view tokens, line assembly
  (`ViewLineIterator::next`), `should_show_line_number`, tab expansion and
  the `Layout` byte↔view position maps;
* `src/src/editor.rs` — `Editor::action_to_events` (character insertion and
  deletion branches), `Editor::cut_selection`, `Editor::close_buffer`,
  `Editor::paste`;
* `src/src/lsp_diagnostics.rs` — `diagnostic_to_overlay` and
  `apply_diagnostics_to_state`;
* `src/src/persistence.rs` — `ChunkTreePersistence::read`.

Buffers are modelled as lists of bytes (`List Nat`), strings of display text
as lists of characters, and the Rust `HashMap`s as association lists.  Parts
of the repository that the source under `src/` only calls into (the cursor,
state, overlay, margin and chunk-tree modules) are modelled from the
specification; each such definition says so in its doc comment.
-/

namespace Fresh

/-! ### Association-list helpers (model of `HashMap` access) -/

/-- Look up the value bound to `k` in an association list (first match). -/
def lookupA (k : Nat) : List (Nat × α) → Option α
  | [] => none
  | (k2, v) :: rest => if k2 = k then some v else lookupA k rest

/-- Remove every entry whose key is `k` (a `HashMap` has a single one). -/
def removeKey (k : Nat) (l : List (Nat × α)) : List (Nat × α) :=
  l.filter (fun kv => kv.1 ≠ k)

/-! ## Persistence layer (`src/src/persistence.rs`) -/

/-- Modelled from the spec: `crate::chunk_tree` is not under `src/`.  Per
§4.A the chunk tree is "a logical ordered sequence of bytes"; a tree value is
modelled as that byte sequence, `ChunkTree::len` as its length and
`ChunkTree::bytes_at(offset)` as the iterator over the bytes from `offset`,
i.e. `tree.drop offset`. -/
def ChunkTree := List Nat

/-- Byte iterator from `offset` (`ChunkTree::bytes_at`). -/
def ChunkTree.bytesAt (tree : ChunkTree) (offset : Nat) : List Nat :=
  List.drop offset tree

/-- Length of the stored byte sequence (`ChunkTree::len`). -/
def ChunkTree.len (tree : ChunkTree) : Nat :=
  List.length tree

/-- The `for _ in 0..actual_len` loop of `ChunkTreePersistence::read`: pop up
to `n` bytes off the iterator, stopping early if it is exhausted. -/
def readLoop : Nat → List Nat → List Nat → List Nat
  | 0, _, acc => acc
  | _ + 1, [], acc => acc
  | n + 1, b :: rest, acc => readLoop n rest (acc ++ [b])

/-- `ChunkTreePersistence::read` from `src/src/persistence.rs`: an
out-of-range offset yields `Ok(vec![])`; otherwise the requested length is
clamped to the stored length and that many bytes are copied out. -/
def ChunkTreePersistence.read (tree : ChunkTree) (offset len : Nat) :
    Except String (List Nat) :=
  if offset ≥ tree.len then
    .ok []
  else
    .ok (readLoop (min len (tree.len - offset)) (tree.bytesAt offset) [])

/-! ## View pipeline (`src/src/ui/view_pipeline.rs`)

Display text is modelled as `List Char`; the Rust `String` byte length used
for `tab_starts` positions is recovered with `utf8Len`.  The `HashSet` of tab
start positions is modelled as a duplicate-free list (`hsInsert`). -/

/-- `ViewTokenWireKind` from `crate::plugin_api` (declaration-only import of
the wire token type used by the pipeline). -/
inductive TokenKind where
  | Text (s : List Char)
  | Space
  | Newline
  | Break
deriving DecidableEq

/-- `ViewTokenWire`: a token plus its optional source offset and style. -/
structure ViewTokenWire where
  kind : TokenKind
  sourceOffset : Option Nat
  style : Option Nat
deriving DecidableEq

/-- `LineStart`: what preceded the start of a display line. -/
inductive LineStart where
  | Beginning
  | AfterSourceNewline
  | AfterInjectedNewline
  | AfterBreak
deriving DecidableEq

/-- `LineStart::is_continuation`. -/
def LineStart.is_continuation : LineStart → Bool
  | .AfterBreak => true
  | _ => false

/-- `ViewLine`: one display line with per-character source mappings. -/
structure ViewLine where
  text : List Char
  charMappings : List (Option Nat)
  charStyles : List (Option Nat)
  tabStarts : List Nat
  lineStart : LineStart
  endsWithNewline : Bool
deriving DecidableEq

/-- `TAB_WIDTH`: standard tab width for terminal display. -/
def TAB_WIDTH : Nat := 8

/-- `tab_expansion_width`: spaces needed to reach the next tab stop. -/
def tab_expansion_width (col : Nat) : Nat :=
  TAB_WIDTH - col % TAB_WIDTH

/-- UTF-8 byte length of accumulated display text (Rust `String::len`). -/
def utf8Len (l : List Char) : Nat :=
  (l.map Char.utf8Size).sum

/-- `HashSet::insert` on the model of a set as a duplicate-free list. -/
def hsInsert (pos : Nat) (s : List Nat) : List Nat :=
  if pos ∈ s then s else s ++ [pos]

/-- The per-line accumulator of `ViewLineIterator::next`: the local `text`,
`char_mappings`, `char_styles`, `tab_starts`, `col` variables. -/
structure LineAcc where
  text : List Char
  charMappings : List (Option Nat)
  charStyles : List (Option Nat)
  tabStarts : List Nat
  col : Nat
deriving DecidableEq

/-- Initial accumulator at the start of `ViewLineIterator::next`. -/
def emptyAcc : LineAcc := ⟨[], [], [], [], 0⟩

/-- One character of the `Text` branch of `ViewLineIterator::next`: a tab
expands to `tab_expansion_width col` spaces all carrying the tab's source
offset and records the expansion start (a byte position in the display text);
any other character is pushed as itself.  The same push is used for the
`Space`, `Newline` and `Break` branches. -/
def processChar (ch : Char) (source : Option Nat) (style : Option Nat)
    (acc : LineAcc) : LineAcc :=
  if ch = '\t' then
    { text := acc.text ++ List.replicate (tab_expansion_width acc.col) ' '
      charMappings := acc.charMappings ++
        List.replicate (tab_expansion_width acc.col) source
      charStyles := acc.charStyles ++
        List.replicate (tab_expansion_width acc.col) style
      tabStarts := hsInsert (utf8Len acc.text) acc.tabStarts
      col := acc.col + tab_expansion_width acc.col }
  else
    { text := acc.text ++ [ch]
      charMappings := acc.charMappings ++ [source]
      charStyles := acc.charStyles ++ [style]
      tabStarts := acc.tabStarts
      col := acc.col + 1 }

/-- The `for ch in t.chars()` loop of the `Text` branch: `byteIdx` tracks the
UTF-8 byte index inside the token, and each character's mapping is
`base.map (· + byteIdx)`. -/
def processText (chars : List Char) (base : Option Nat) (style : Option Nat)
    (byteIdx : Nat) (acc : LineAcc) : LineAcc :=
  match chars with
  | [] => acc
  | ch :: rest =>
    processText rest base style (byteIdx + ch.utf8Size)
      (processChar ch (base.map (· + byteIdx)) style acc)

/-- The token loop of `ViewLineIterator::next`: consume tokens until a
`Newline` or `Break` ends the line.  Returns the accumulator, the line start
recorded for the following line (`none` when the stream was exhausted
without a line break) and the remaining tokens. -/
def lineLoop : List ViewTokenWire → LineAcc →
    LineAcc × Option LineStart × List ViewTokenWire
  | [], acc => (acc, none, [])
  | tok :: rest, acc =>
    match tok.kind with
    | .Text s => lineLoop rest (processText s tok.sourceOffset tok.style 0 acc)
    | .Space => lineLoop rest (processChar ' ' tok.sourceOffset tok.style acc)
    | .Newline =>
      (processChar '\n' tok.sourceOffset tok.style acc,
       some (if tok.sourceOffset.isSome then .AfterSourceNewline
             else .AfterInjectedNewline),
       rest)
    | .Break => (processChar '\n' none none acc, some .AfterBreak, rest)

/-- Package the accumulator into a `ViewLine`. -/
def mkViewLine (acc : LineAcc) (ls : LineStart) (endsNl : Bool) : ViewLine :=
  ⟨acc.text, acc.charMappings, acc.charStyles, acc.tabStarts, ls, endsNl⟩

/-- One call of `ViewLineIterator::next`: `none` when the token stream is
exhausted, or when the final line would be empty. -/
def nextViewLine (tokens : List ViewTokenWire) (ls : LineStart) :
    Option (ViewLine × List ViewTokenWire × LineStart) :=
  match tokens with
  | [] => none
  | _ :: _ =>
    match (lineLoop tokens emptyAcc).2.1 with
    | some ns =>
      some (mkViewLine (lineLoop tokens emptyAcc).1 ls true,
        (lineLoop tokens emptyAcc).2.2, ns)
    | none =>
      if (lineLoop tokens emptyAcc).1.text.isEmpty then none
      else
        some (mkViewLine (lineLoop tokens emptyAcc).1 ls false,
          (lineLoop tokens emptyAcc).2.2, ls)

/-- Iterate `ViewLineIterator::next` to exhaustion.  Structural recursion on
a fuel counter; each produced line consumes at least one token, so
`tokens.length + 1` fuel is always enough (see `assembleFuel_fuel_irrel`). -/
def assembleFuel : Nat → List ViewTokenWire → LineStart → List ViewLine
  | 0, _, _ => []
  | fuel + 1, tokens, ls =>
    match nextViewLine tokens ls with
    | none => []
    | some (line, rest, ns) => line :: assembleFuel fuel rest ns

/-- `ViewLineIterator::new(tokens).collect()`: all display lines of a token
stream, starting at `LineStart::Beginning`. -/
def assembleLines (tokens : List ViewTokenWire) : List ViewLine :=
  assembleFuel (tokens.length + 1) tokens .Beginning

/-- `should_show_line_number` from `src/src/ui/view_pipeline.rs`. -/
def should_show_line_number (line : ViewLine) : Bool :=
  if line.lineStart.is_continuation then false
  else if line.charMappings.isEmpty then
    match line.lineStart with
    | .Beginning => true
    | .AfterSourceNewline => true
    | _ => false
  else
    match line.charMappings.head? with
    | some m => m.isSome
    | none => false

/-- The gutter rule exactly as the specification words it (claim C3): a line
shows a number iff its line start is `Beginning` or `AfterSourceNewline`, or
it is `AfterInjectedNewline` and the first character carries a source
offset.  Used only to compare with `should_show_line_number`. -/
def gutterRuleClaim (line : ViewLine) : Bool :=
  decide (line.lineStart = .Beginning) ||
  decide (line.lineStart = .AfterSourceNewline) ||
  (decide (line.lineStart = .AfterInjectedNewline) &&
    (match line.charMappings.head? with
     | some m => m.isSome
     | none => false))

/-- First source offset of a mapping list (`iter().find_map(|m| *m)`). -/
def firstSome : List (Option Nat) → Option Nat
  | [] => none
  | some b :: _ => some b
  | none :: rest => firstSome rest

/-- The `byte_to_line` index built by `Layout::new`: for each line (in
order), its first source byte maps to the line index.  A later line with the
same first byte overwrites an earlier one in the `BTreeMap`; the model keeps
both entries and `lookupLE` prefers the later one. -/
def buildByteToLine : Nat → List ViewLine → List (Nat × Nat)
  | _, [] => []
  | i, line :: rest =>
    (match firstSome line.charMappings with
     | some f => [(f, i)]
     | none => []) ++ buildByteToLine (i + 1) rest

/-- `Layout` from `src/src/ui/view_pipeline.rs`.  The `source_range` and the
two total-line counters are not involved in any claim and are omitted. -/
structure Layout where
  lines : List ViewLine
  byteToLine : List (Nat × Nat)

/-- `Layout::new`. -/
def Layout.new (lines : List ViewLine) : Layout :=
  ⟨lines, buildByteToLine 0 lines⟩

/-- `Layout::from_tokens`. -/
def Layout.fromTokens (tokens : List ViewTokenWire) : Layout :=
  Layout.new (assembleLines tokens)

/-- `BTreeMap::range(..=b).last()`: the entry with the greatest key `≤ b`,
preferring the later entry on equal keys (the `BTreeMap` overwrite). -/
def lookupLE (b : Nat) : List (Nat × Nat) → Option (Nat × Nat)
  | [] => none
  | kv :: rest =>
    match lookupLE b rest with
    | none => if kv.1 ≤ b then some kv else none
    | some best =>
      if kv.1 ≤ b then
        if best.1 < kv.1 then some kv else some best
      else some best

/-- Index of the first element satisfying `p` (the column scan in
`source_byte_to_view_position`). -/
def findIndex (p : α → Bool) : List α → Option Nat
  | [] => none
  | x :: rest => if p x then some 0 else (findIndex p rest).map (· + 1)

/-- `Layout::source_byte_to_view_position`. -/
def Layout.source_byte_to_view_position (lay : Layout) (b : Nat) :
    Option (Nat × Nat) :=
  match lookupLE b lay.byteToLine with
  | none => none
  | some kv =>
    match lay.lines.get? kv.2 with
    | none => none
    | some line =>
      match findIndex (fun m => decide (m = some b)) line.charMappings with
      | some col => some (kv.2, col)
      | none => some (kv.2, line.charMappings.length)

/-- `Layout::view_position_to_source_byte`. -/
def Layout.view_position_to_source_byte (lay : Layout) (lineIdx col : Nat) :
    Option Nat :=
  match lay.lines.get? lineIdx with
  | none => none
  | some line =>
    if col < line.charMappings.length then
      (line.charMappings.get? col).getD none
    else if line.charMappings.isEmpty then none
    else firstSome line.charMappings.reverse

/-- The claim C4 round trip: map a source byte to its view position and
back. -/
def roundTrip (lay : Layout) (b : Nat) : Option Nat :=
  match lay.source_byte_to_view_position b with
  | some lc => lay.view_position_to_source_byte lc.1 lc.2
  | none => none

/-- A mapping list's first source offset is its minimum mapped byte. -/
def firstIsMin (line : ViewLine) : Bool :=
  match firstSome line.charMappings with
  | none => true
  | some f => (line.charMappings.filterMap id).all (fun b => decide (f ≤ b))

/-- Every mapped byte of `li` lies strictly below the first source byte of
`lj`. -/
def beforeLine (li lj : ViewLine) : Bool :=
  match firstSome lj.charMappings with
  | none => true
  | some fj => (li.charMappings.filterMap id).all (fun b => decide (b < fj))

/-- Source-ordered view lines: within each line the first source byte is the
minimum mapped byte, and all mapped bytes of a line lie strictly below the
first source byte of every later line.  Layouts produced from in-order token
streams (base tokens, wrapping) satisfy this. -/
def orderedLines : List ViewLine → Bool
  | [] => true
  | l :: rest => firstIsMin l && rest.all (beforeLine l) && orderedLines rest

/-- Head mapping of a view line carries a source offset. -/
def headMappingSome (line : ViewLine) : Bool :=
  match line.charMappings.head? with
  | some m => m.isSome
  | none => false

/-! ## Editor (`src/src/editor.rs`) -/

/-- Modelled from the spec: `crate::cursor` is not under `src/`.  §3 Cursor:
`position` (byte offset) and optional `anchor`; anchor equal to position
means no selection. -/
structure Cursor where
  position : Nat
  anchor : Option Nat
deriving DecidableEq

/-- Modelled from the spec: `Cursor::selection_range` — "Selection range is
`[min(anchor,position), max(anchor,position))`", none when there is no
anchor or the anchor equals the position. -/
def Cursor.selection_range (c : Cursor) : Option (Nat × Nat) :=
  match c.anchor with
  | none => none
  | some a => if a = c.position then none else some (min a c.position, max a c.position)

/-- The event variants of spec §3 reachable from the embedded `editor.rs`
functions (the remaining variants are not produced by them). -/
inductive Event where
  | Insert (position : Nat) (text : List Nat) (cursorId : Nat)
  | Delete (start stop : Nat) (deletedText : List Nat) (cursorId : Nat)
  | MoveCursor (cursorId : Nat) (position : Nat) (anchor : Option Nat)
deriving DecidableEq

/-- `Buffer::slice(range)` on the byte-list model of the text store. -/
def bufSlice (buf : List Nat) (s e : Nat) : List Nat :=
  (buf.take e).drop s

/-- `Action::InsertChar` branch of `Editor::action_to_events`: per cursor in
iteration order, a `Delete` of the selection when one exists, then an
`Insert` of the typed text at `cursor.position`. -/
def insertCharEvents (buf : List Nat) (cursors : List (Nat × Cursor))
    (ch : List Nat) : List Event :=
  cursors.flatMap (fun ic =>
    (match ic.2.selection_range with
     | some se => [Event.Delete se.1 se.2 (bufSlice buf se.1 se.2) ic.1]
     | none => []) ++ [Event.Insert ic.2.position ch ic.1])

/-- `Action::DeleteBackward` branch of `Editor::action_to_events`. -/
def deleteBackwardEvents (buf : List Nat) (cursors : List (Nat × Cursor)) :
    List Event :=
  cursors.flatMap (fun ic =>
    match ic.2.selection_range with
    | some se => [Event.Delete se.1 se.2 (bufSlice buf se.1 se.2) ic.1]
    | none =>
      if ic.2.position > 0 then
        [Event.Delete (ic.2.position - 1) ic.2.position
          (bufSlice buf (ic.2.position - 1) ic.2.position) ic.1]
      else [])

/-- `Action::DeleteForward` branch of `Editor::action_to_events`. -/
def deleteForwardEvents (buf : List Nat) (cursors : List (Nat × Cursor)) :
    List Event :=
  cursors.flatMap (fun ic =>
    match ic.2.selection_range with
    | some se => [Event.Delete se.1 se.2 (bufSlice buf se.1 se.2) ic.1]
    | none =>
      if ic.2.position < buf.length then
        [Event.Delete ic.2.position (ic.2.position + 1)
          (bufSlice buf ic.2.position (ic.2.position + 1)) ic.1]
      else [])

/-- `Editor::cut_selection`: selection ranges are collected in cursor order,
reversed, and each becomes a `Delete` attributed to the primary cursor. -/
def cut_selection_events (buf : List Nat) (cursors : List (Nat × Cursor))
    (primaryId : Nat) : List Event :=
  ((cursors.filterMap (fun ic => ic.2.selection_range)).reverse).map
    (fun se => Event.Delete se.1 se.2 (bufSlice buf se.1 se.2) primaryId)

/-- Start offsets of the `Delete` events in a compiled batch. -/
def deleteStarts (evs : List Event) : List Nat :=
  evs.filterMap (fun e =>
    match e with
    | .Delete s _ _ _ => some s
    | _ => none)

/-- Strictly descending sequence of offsets. -/
def strictlyDescending : List Nat → Bool
  | [] => true
  | [_] => true
  | a :: b :: rest => decide (b < a) && strictlyDescending (b :: rest)

/-- Modelled from the spec: `crate::state::EditorState` is not under `src/`.
Only the fields the embedded shell operations touch are kept: the byte
content of the store, the cursor set (insertion-ordered association list
with a primary id, §4.C) and the modified flag. -/
structure EditorState where
  content : List Nat
  cursors : List (Nat × Cursor)
  primaryId : Nat
  modified : Bool
deriving DecidableEq

/-- Modelled from the spec: §4.D `apply(Insert)` — delegate to the store,
shift every other cursor (and anchor) at or past the position by the text
length, move the originating cursor to `position + len` and clear its
anchor. -/
def applyInsert (st : EditorState) (pos : Nat) (text : List Nat)
    (cid : Nat) : EditorState :=
  { st with
    content := st.content.take pos ++ text ++ st.content.drop pos
    cursors := st.cursors.map (fun ic =>
      if ic.1 = cid then
        (ic.1, ⟨pos + text.length, none⟩)
      else
        (ic.1,
         ⟨if ic.2.position ≥ pos then ic.2.position + text.length
          else ic.2.position,
          ic.2.anchor.map (fun a => if a ≥ pos then a + text.length else a)⟩))
    modified := true }

/-- The editor shell of `src/src/editor.rs`: buffer map, active buffer,
per-buffer event logs, shared clipboard, status message.  The fields not
touched by the embedded operations (config, keybindings, quit flag, help
state) are omitted. -/
structure Editor where
  buffers : List (Nat × EditorState)
  activeBuffer : Nat
  eventLogs : List (Nat × List Event)
  clipboard : List Nat
  statusMessage : Option String
deriving DecidableEq

/-- Fallback for `active_state`'s unwrap; the editor maintains the invariant
that the active buffer is present, so this default is never read. -/
def defaultEditorState : EditorState := ⟨[], [(0, ⟨0, none⟩)], 0, false⟩

/-- `Editor::active_state`. -/
def Editor.activeState (ed : Editor) : EditorState :=
  (lookupA ed.activeBuffer ed.buffers).getD defaultEditorState

/-- Write back the active buffer's state. -/
def Editor.setActiveState (ed : Editor) (st : EditorState) : Editor :=
  { ed with
    buffers := ed.buffers.map (fun kv =>
      if kv.1 = ed.activeBuffer then (kv.1, st) else kv) }

/-- `Editor::active_event_log_mut().append(event)`. -/
def Editor.appendActiveLog (ed : Editor) (e : Event) : Editor :=
  { ed with
    eventLogs := ed.eventLogs.map (fun kv =>
      if kv.1 = ed.activeBuffer then (kv.1, kv.2 ++ [e]) else kv) }

/-- `CursorSet::primary` (modelled from the spec: the primary id always
identifies a present cursor). -/
def EditorState.primaryCursor (st : EditorState) : Cursor :=
  (lookupA st.primaryId st.cursors).getD ⟨0, none⟩

/-- `Editor::paste` from `src/src/editor.rs`: an empty clipboard returns
immediately; otherwise an `Insert` of the clipboard at the primary cursor is
appended to the active log and applied, and the status message becomes
"Pasted". -/
def Editor.paste (ed : Editor) : Editor :=
  if ed.clipboard.isEmpty then ed
  else
    let st := ed.activeState
    let ev := Event.Insert st.primaryCursor.position ed.clipboard st.primaryId
    let ed1 := ed.appendActiveLog ev
    let ed2 := ed1.setActiveState
      (applyInsert ed1.activeState st.primaryCursor.position ed.clipboard
        st.primaryId)
    { ed2 with statusMessage := some "Pasted" }

/-- `Editor::close_buffer` from `src/src/editor.rs`.  Errors (last buffer,
unsaved changes) return before any mutation; otherwise the buffer and its
event log are removed and, when the closed buffer was active, the first
remaining buffer becomes active (`keys().next().unwrap()`; the fallback `0`
is unreachable because the remaining map is non-empty there). -/
def Editor.close_buffer (ed : Editor) (id : Nat) :
    Editor × Except String Unit :=
  if ed.buffers.length = 1 then
    (ed, .error "Cannot close last buffer")
  else if (match lookupA id ed.buffers with
           | some st => st.modified
           | none => false) then
    (ed, .error "Buffer has unsaved changes")
  else
    let buffers2 := removeKey id ed.buffers
    let logs2 := removeKey id ed.eventLogs
    let active2 :=
      if ed.activeBuffer = id then
        match buffers2.head? with
        | some kv => kv.1
        | none => 0
      else ed.activeBuffer
    ({ ed with
        buffers := buffers2
        eventLogs := logs2
        activeBuffer := active2 }, .ok ())

/-- Whether a shell operation result is an error. -/
def exceptIsError : Except String Unit → Bool
  | .error _ => true
  | .ok _ => false

/-! ## LSP diagnostics (`src/src/lsp_diagnostics.rs`) -/

/-- `lsp_types::Diagnostic`, reduced to the fields the module reads.  The
severity is the numeric LSP value (`1` error, `2` warning, `3` information,
`4` hint), optional, with other values possible. -/
structure Diagnostic where
  startLine : Nat
  startChar : Nat
  endLine : Nat
  endChar : Nat
  severity : Option Nat
  message : String
deriving DecidableEq

/-- The four diagnostic background colors read from `crate::theme::Theme`. -/
structure Theme where
  diagnosticErrorBg : Nat
  diagnosticWarningBg : Nat
  diagnosticInfoBg : Nat
  diagnosticHintBg : Nat
deriving DecidableEq

/-- `crate::overlay::OverlayFace`, background variant (the only one the
diagnostics module produces). -/
inductive OverlayFace where
  | Background (color : Nat)
deriving DecidableEq

/-- Modelled from the spec: `crate::buffer` is not under `src/`.  §4.G only
requires the store to answer `lsp_position_to_byte(line, utf16_col)`, so a
buffer is modelled by that conversion function. -/
structure LspBuffer where
  lspPositionToByte : Nat → Nat → Nat

/-- `diagnostic_to_overlay` from `src/src/lsp_diagnostics.rs`: positions are
converted through the store, severity selects face and priority (hint also
covers a missing severity; unknown severities convert to nothing). -/
def diagnostic_to_overlay (d : Diagnostic) (buffer : LspBuffer)
    (theme : Theme) : Option (Nat × Nat × OverlayFace × Int) :=
  let startByte := buffer.lspPositionToByte d.startLine d.startChar
  let endByte := buffer.lspPositionToByte d.endLine d.endChar
  match d.severity with
  | some 1 => some (startByte, endByte, .Background theme.diagnosticErrorBg, 100)
  | some 2 => some (startByte, endByte, .Background theme.diagnosticWarningBg, 50)
  | some 3 => some (startByte, endByte, .Background theme.diagnosticInfoBg, 30)
  | some 4 => some (startByte, endByte, .Background theme.diagnosticHintBg, 10)
  | none => some (startByte, endByte, .Background theme.diagnosticHintBg, 10)
  | some _ => none

/-- Modelled from the spec: `crate::overlay::Overlay` — `{id, range, face,
priority, message}` (§3).  Ids are modelled as character lists so that the
reserved-marker test is `List.isPrefixOf`. -/
structure Overlay where
  id : Option (List Char)
  start : Nat
  stop : Nat
  face : OverlayFace
  priority : Int
  message : Option String
deriving DecidableEq

/-- The reserved overlay id marker `"lsp-diagnostic-"`. -/
def lspMarker : List Char := "lsp-diagnostic-".toList

/-- Modelled from the spec: the overlay collection is "an ordered collection
keyed by id" (§4.G), kept as the insertion-ordered list returned by
`overlays.all()`; the margin diagnostic indicators are the set of marked
lines (the indicator glyph and color are the constants `"●"`/red). -/
structure LspEditorState where
  overlays : List Overlay
  margins : List Nat
  buffer : LspBuffer

/-- Whether an overlay's id starts with the reserved diagnostic marker
`"lsp-diagnostic-"`. -/
def isDiagnosticId (o : Overlay) : Bool :=
  match o.id with
  | some s => lspMarker.isPrefixOf s
  | none => false

/-- `overlays.remove_by_id(id)`. -/
def removeById (oid : List Char) (overlays : List Overlay) : List Overlay :=
  overlays.filter (fun o => o.id ≠ some oid)

/-- The id collection pass of `apply_diagnostics_to_state`: all present
overlay ids starting with the reserved marker. -/
def collectDiagnosticIds (overlays : List Overlay) : List (List Char) :=
  overlays.filterMap (fun o =>
    match o.id with
    | some s => if lspMarker.isPrefixOf s then some s else none
    | none => none)

/-- Stable insertion into a list sorted by `start.line` (model of the stable
`sort_by_key`). -/
def sortInsert (x : Nat × Diagnostic) :
    List (Nat × Diagnostic) → List (Nat × Diagnostic)
  | [] => [x]
  | y :: rest =>
    if x.2.startLine ≤ y.2.startLine then x :: y :: rest
    else y :: sortInsert x rest

/-- Stable sort of the enumerated diagnostics by start line. -/
def sortByStartLine : List (Nat × Diagnostic) → List (Nat × Diagnostic)
  | [] => []
  | x :: rest => sortInsert x (sortByStartLine rest)

/-- `iter().enumerate()` from an arbitrary first index. -/
def enumFrom (n : Nat) : List α → List (Nat × α)
  | [] => []
  | x :: rest => (n, x) :: enumFrom (n + 1) rest

/-- Build the overlay inserted for one converted diagnostic: the id is
`"lsp-diagnostic-" ++ idx` (the original index), with the converted range,
face, priority and the diagnostic message. -/
def mkOverlay (r : Nat × Nat × OverlayFace × Int) (idx : Nat)
    (msg : String) : Overlay :=
  ⟨some (lspMarker ++ (Nat.repr idx).toList), r.1, r.2.1, r.2.2.1, r.2.2.2,
   some msg⟩

/-- The overlays that one application of a diagnostic set inserts, in
insertion order (sorted by start line; unconvertible diagnostics skipped). -/
def mkDiagnosticOverlays (buffer : LspBuffer) (theme : Theme)
    (diags : List Diagnostic) : List Overlay :=
  (sortByStartLine (enumFrom 0 diags)).filterMap (fun idxd =>
    (diagnostic_to_overlay idxd.2 buffer theme).map
      (fun r => mkOverlay r idxd.1 idxd.2.message))

/-- `apply_diagnostics_to_state` from `src/src/lsp_diagnostics.rs`: collect
and remove the reserved overlays, clear the margin indicators, then walk the
diagnostics sorted by start line, adding an overlay per convertible
diagnostic and collecting its start line, and finally mark each collected
line in the margin.  (`populate_line_cache` only warms a cache and has no
observable effect on this state.) -/
def apply_diagnostics_to_state (st : LspEditorState)
    (diags : List Diagnostic) (theme : Theme) : LspEditorState :=
  let ids := collectDiagnosticIds st.overlays
  let overlays1 := ids.foldl (fun ovs oid => removeById oid ovs) st.overlays
  let sorted := sortByStartLine (enumFrom 0 diags)
  let overlays2 := sorted.foldl (fun ovs idxd =>
    match diagnostic_to_overlay idxd.2 st.buffer theme with
    | some r => ovs ++ [mkOverlay r idxd.1 idxd.2.message]
    | none => ovs) overlays1
  let dlines := sorted.foldl (fun acc idxd =>
    if (diagnostic_to_overlay idxd.2 st.buffer theme).isSome then
      hsInsert idxd.2.startLine acc
    else acc) []
  { st with
    overlays := overlays2
    margins := dlines.foldl (fun m line => hsInsert line m) [] }

/-! ## Concrete inputs used by counterexamples and witnesses -/

/-- C3 counterexample stream: an injected character on the first line,
followed by a source newline. -/
def demoToksC3 : List ViewTokenWire :=
  [⟨.Text ['H'], none, none⟩, ⟨.Newline, some 0, none⟩]

/-- C4 counterexample stream: a token stream whose source offsets are out of
order (as a reordering transform may produce). -/
def demoToksC4 : List ViewTokenWire :=
  [⟨.Text ['b'], some 5, none⟩, ⟨.Newline, none, none⟩,
   ⟨.Text ['a'], some 0, none⟩, ⟨.Text ['c'], some 7, none⟩,
   ⟨.Newline, none, none⟩]

/-- An empty view line (placeholder for out-of-range indexing). -/
def emptyViewLine : ViewLine := ⟨[], [], [], [], .Beginning, false⟩

/-- C3 witness stream: one source character and a source newline. -/
def demoToksC3w : List ViewTokenWire :=
  [⟨.Text ['a'], some 0, none⟩, ⟨.Newline, some 1, none⟩]

/-- C4 witness stream: two in-order source lines. -/
def demoToksC4w : List ViewTokenWire :=
  [⟨.Text ['a', 'b'], some 0, none⟩, ⟨.Newline, some 2, none⟩,
   ⟨.Text ['c'], some 3, none⟩, ⟨.Newline, some 4, none⟩]

/-- C7/C10 witness editor: two clean buffers, buffer 0 active, empty
clipboard. -/
def demoEditor : Editor :=
  ⟨[(0, ⟨[104, 105], [(0, ⟨0, none⟩)], 0, false⟩),
    (1, ⟨[], [(0, ⟨0, none⟩)], 0, false⟩)],
   0,
   [(0, []), (1, [])],
   [],
   none⟩

/-- C5/C6 witness buffer: a simple line/column to byte conversion. -/
def demoLspBuffer : LspBuffer := ⟨fun line col => line * 100 + col⟩

/-- C5/C6 witness theme. -/
def demoTheme : Theme := ⟨11, 12, 13, 14⟩

/-- C5 witness diagnostics: a warning and an error on line 2, an unknown
severity on line 9. -/
def demoDiags : List Diagnostic :=
  [⟨2, 4, 2, 6, some 2, "w"⟩, ⟨2, 0, 2, 3, some 1, "e"⟩,
   ⟨9, 0, 9, 1, some 7, "u"⟩]

/-- C5 witness state: one reserved overlay and one foreign overlay. -/
def demoLspState : LspEditorState :=
  ⟨[⟨some "lsp-diagnostic-0".toList, 0, 1, .Background 3, 100, some "old"⟩,
    ⟨some "search-highlight".toList, 2, 5, .Background 4, 20, none⟩],
   [7],
   demoLspBuffer⟩

end Fresh

namespace Fresh

/-! ## Lemmas for `ChunkTreePersistence::read` (claim C9) -/

theorem readLoop_eq_take (n : Nat) (l acc : List Nat) :
    readLoop n l acc = acc ++ l.take n := by
  induction n generalizing l acc with
  | zero => simp [readLoop]
  | succ n ih =>
    cases l with
    | nil => simp [readLoop]
    | cons b rest => simp [readLoop, ih]

end Fresh

/-- C9: `ChunkTreePersistence::read` is total: it always returns `Ok`, with
an empty vector when `offset` is at or past the stored length and otherwise
with exactly `min(requested, stored − offset)` bytes starting at `offset`. -/
theorem C9_read_total (tree : Fresh.ChunkTree) (offset len : Nat) :
    Fresh.ChunkTreePersistence.read tree offset len =
      .ok ((List.drop offset tree).take len) ∧
    ((List.drop offset tree).take len).length =
      min len (tree.len - offset) := by
  unfold Fresh.ChunkTreePersistence.read
  by_cases h : offset ≥ tree.len
  · have hdrop : List.drop offset tree = [] := by
      apply List.drop_eq_nil_of_le
      exact h
    constructor
    · simp [h, hdrop]
    · simp [hdrop]
      omega
  · have hlen : (List.drop offset tree).length = tree.len - offset := by
      simp [Fresh.ChunkTree.len, List.length_drop]
    constructor
    · simp only [h, if_false, Fresh.ChunkTree.bytesAt, Fresh.readLoop_eq_take,
        List.nil_append]
      congr 1
      rcases Nat.le_total len (tree.len - offset) with hle | hle
      · rw [Nat.min_eq_left hle]
      · rw [Nat.min_eq_right hle]
        rw [List.take_of_length_le (by omega), List.take_of_length_le (by omega)]
    · rw [List.length_take, hlen]

namespace Fresh

/-! ## Small helper lemmas -/

theorem hsInsert_self (p : Nat) (s : List Nat) : p ∈ hsInsert p s := by
  unfold hsInsert
  by_cases h : p ∈ s
  · simp [h]
  · simp [h]

theorem mem_hsInsert (x p : Nat) (s : List Nat) :
    x ∈ hsInsert p s ↔ x ∈ s ∨ x = p := by
  unfold hsInsert
  by_cases h : p ∈ s
  · simp only [h, if_true]
    constructor
    · exact Or.inl
    · rintro (hx | rfl)
      · exact hx
      · exact h
  · simp [h]

theorem nodup_hsInsert (p : Nat) (s : List Nat) (h : s.Nodup) :
    (hsInsert p s).Nodup := by
  unfold hsInsert
  by_cases hp : p ∈ s
  · simpa [hp]
  · simp [hp, List.nodup_append, h]

end Fresh

/-- C1: on a cursor with a forward selection (anchor 0, position 3 over the
buffer `"abc"`), the compiled character-insert batch is a `Delete` of the
selection `0..3` followed by an `Insert` positioned at `3` — the cursor's
current position, the end of the deleted range — although the collapsed
position (the start of the deleted range) is `0`.  This exhibits the
divergence of `Editor::action_to_events` from the claimed `Insert(at
collapsed position)`. -/
theorem C1_insert_position :
    Fresh.insertCharEvents [97, 98, 99] [(0, ⟨3, some 0⟩)] [88] =
      [.Delete 0 3 [97, 98, 99] 0, .Insert 3 [88] 0] ∧
    Fresh.Cursor.selection_range ⟨3, some 0⟩ = some (0, 3) ∧
    (3 : Nat) ≠ 0 := by
  decide

/-- C2: with two cursors at positions 1 and 2 on the buffer `"ab"`,
`Action::DeleteBackward` compiles to two `Delete` events whose range starts
are `[0, 1]` — ascending cursor order, not the claimed strictly descending
order by `range.start`. -/
theorem C2_delete_order :
    Fresh.deleteBackwardEvents [97, 98] [(0, ⟨1, none⟩), (1, ⟨2, none⟩)] =
      [.Delete 0 1 [97] 0, .Delete 1 2 [98] 1] ∧
    Fresh.deleteStarts
      (Fresh.deleteBackwardEvents [97, 98] [(0, ⟨1, none⟩), (1, ⟨2, none⟩)]) =
      [0, 1] ∧
    Fresh.strictlyDescending
      (Fresh.deleteStarts
        (Fresh.deleteBackwardEvents [97, 98]
          [(0, ⟨1, none⟩), (1, ⟨2, none⟩)])) = false := by
  decide

/-- C3 counterexample: the token stream `[Text "H" (injected), Newline at
source offset 0]` assembles to a single line whose line start is
`Beginning`; the claimed gutter rule demands a line number for it, but
`should_show_line_number` returns `false` because its first character is
injected. -/
theorem C3_counterexample :
    (Fresh.assembleLines Fresh.demoToksC3).map
      (fun l => (l.lineStart, Fresh.should_show_line_number l,
        Fresh.gutterRuleClaim l)) =
      [(.Beginning, false, true)] := by
  decide

/-- C4 counterexample: assembling the out-of-order stream `demoToksC4`
yields a layout in which source byte `7` has a character mapping (line 1,
column 1), yet the round trip through `source_byte_to_view_position` and
`view_position_to_source_byte` returns `some 5`, not `some 7`. -/
theorem C4_counterexample :
    some 7 ∈ ((Fresh.Layout.fromTokens Fresh.demoToksC4).lines.getD 1
      Fresh.emptyViewLine).charMappings ∧
    Fresh.roundTrip (Fresh.Layout.fromTokens Fresh.demoToksC4) 7 = some 5 ∧
    Fresh.roundTrip (Fresh.Layout.fromTokens Fresh.demoToksC4) 7 ≠ some 7 := by
  decide

/-- C8: in line assembly, a tab at display column `col` expands to exactly
`TAB_WIDTH - col % TAB_WIDTH` spaces (tab width 8); every inserted space
carries the tab's source offset; the expansion start position is recorded in
`tab_starts`; and the column after the expansion is the next multiple of the
tab width. -/
theorem C8_tab_expansion (source style : Option Nat) (acc : Fresh.LineAcc) :
    (Fresh.processChar '\t' source style acc).text =
      acc.text ++ List.replicate (Fresh.tab_expansion_width acc.col) ' ' ∧
    (Fresh.processChar '\t' source style acc).charMappings =
      acc.charMappings ++
        List.replicate (Fresh.tab_expansion_width acc.col) source ∧
    Fresh.utf8Len acc.text ∈ (Fresh.processChar '\t' source style acc).tabStarts ∧
    (Fresh.processChar '\t' source style acc).col =
      acc.col + Fresh.tab_expansion_width acc.col ∧
    Fresh.tab_expansion_width acc.col =
      Fresh.TAB_WIDTH - acc.col % Fresh.TAB_WIDTH ∧
    (acc.col + Fresh.tab_expansion_width acc.col) % Fresh.TAB_WIDTH = 0 ∧
    0 < Fresh.tab_expansion_width acc.col ∧
    Fresh.tab_expansion_width acc.col ≤ Fresh.TAB_WIDTH ∧
    Fresh.TAB_WIDTH = 8 := by
  refine ⟨?_, ?_, ?_, ?_, rfl, ?_, ?_, ?_, rfl⟩
  · simp [Fresh.processChar]
  · simp [Fresh.processChar]
  · simpa [Fresh.processChar] using Fresh.hsInsert_self (Fresh.utf8Len acc.text) acc.tabStarts
  · simp [Fresh.processChar]
  · have h : acc.col % 8 < 8 := Nat.mod_lt _ (by norm_num)
    simp only [Fresh.tab_expansion_width, Fresh.TAB_WIDTH]
    omega
  · have h : acc.col % 8 < 8 := Nat.mod_lt _ (by norm_num)
    simp only [Fresh.tab_expansion_width, Fresh.TAB_WIDTH]
    omega
  · simp only [Fresh.tab_expansion_width, Fresh.TAB_WIDTH]
    omega

/-- C10: with an empty shared clipboard, `Editor::paste` returns the editor
unchanged — no buffer content or cursor changes, no event appended to any
log, no status message change. -/
theorem C10_paste_empty (ed : Fresh.Editor) (h : ed.clipboard = []) :
    ed.paste = ed := by
  simp [Fresh.Editor.paste, h]

/-- Witness for C10 at a concrete editor with an empty clipboard. -/
theorem C10_paste_empty_witness :
    Fresh.demoEditor.clipboard = [] ∧
    Fresh.demoEditor.paste = Fresh.demoEditor :=
  ⟨rfl, C10_paste_empty Fresh.demoEditor rfl⟩

/-- C6: `diagnostic_to_overlay` maps severity to face and priority exactly
as: error (1) to the error background with priority 100, warning (2) to the
warning background with 50, information (3) to the info background with 30
and hint (4) to the hint background with 10; the range is the store's
conversion of the diagnostic's positions. -/
theorem C6_severity_mapping (d : Fresh.Diagnostic) (buffer : Fresh.LspBuffer)
    (theme : Fresh.Theme) (sev color : Nat) (prio : Int)
    (hrow : (sev, color, prio) ∈
      [(1, theme.diagnosticErrorBg, (100 : Int)),
       (2, theme.diagnosticWarningBg, 50),
       (3, theme.diagnosticInfoBg, 30),
       (4, theme.diagnosticHintBg, 10)])
    (hsev : d.severity = some sev) :
    Fresh.diagnostic_to_overlay d buffer theme =
      some (buffer.lspPositionToByte d.startLine d.startChar,
        buffer.lspPositionToByte d.endLine d.endChar,
        .Background color, prio) := by
  simp only [List.mem_cons, List.not_mem_nil, or_false, Prod.mk.injEq] at hrow
  rcases hrow with ⟨rfl, rfl, rfl⟩ | ⟨rfl, rfl, rfl⟩ | ⟨rfl, rfl, rfl⟩ |
    ⟨rfl, rfl, rfl⟩ <;>
    simp [Fresh.diagnostic_to_overlay, hsev]

/-- Witness for C6 at a concrete warning diagnostic. -/
theorem C6_severity_mapping_witness :
    Fresh.diagnostic_to_overlay ⟨2, 4, 2, 6, some 2, "w"⟩ Fresh.demoLspBuffer
      Fresh.demoTheme = some (204, 206, .Background 12, 50) :=
  C6_severity_mapping ⟨2, 4, 2, 6, some 2, "w"⟩ Fresh.demoLspBuffer
    Fresh.demoTheme 2 Fresh.demoTheme.diagnosticWarningBg 50 (by decide) rfl

namespace Fresh

/-! ## Lemmas on line assembly (claim C3) -/

theorem processChar_len (ch : Char) (source style : Option Nat)
    (acc : LineAcc) (h : acc.charMappings.length = acc.text.length) :
    (processChar ch source style acc).charMappings.length =
      (processChar ch source style acc).text.length := by
  unfold processChar
  by_cases hc : ch = '\t' <;> simp [hc, h]

theorem processText_len (chars : List Char) (base style : Option Nat)
    (byteIdx : Nat) (acc : LineAcc)
    (h : acc.charMappings.length = acc.text.length) :
    (processText chars base style byteIdx acc).charMappings.length =
      (processText chars base style byteIdx acc).text.length := by
  induction chars generalizing byteIdx acc with
  | nil => simpa [processText] using h
  | cons ch rest ih =>
    exact ih _ _ (processChar_len ch _ _ acc h)

theorem lineLoop_len (tokens : List ViewTokenWire) (acc : LineAcc)
    (h : acc.charMappings.length = acc.text.length) :
    (lineLoop tokens acc).1.charMappings.length =
      (lineLoop tokens acc).1.text.length := by
  induction tokens generalizing acc with
  | nil => simpa [lineLoop] using h
  | cons tok rest ih =>
    obtain ⟨kind, so, sty⟩ := tok
    cases kind with
    | Text s =>
      simpa [lineLoop] using ih _ (processText_len s so sty 0 acc h)
    | Space =>
      simpa [lineLoop] using ih _ (processChar_len ' ' so sty acc h)
    | Newline =>
      simpa [lineLoop] using processChar_len '\n' so sty acc h
    | Break =>
      simpa [lineLoop] using processChar_len '\n' none none acc h

theorem lineLoop_break_ne_nil (tokens : List ViewTokenWire) (acc : LineAcc)
    (ns : LineStart) (h : (lineLoop tokens acc).2.1 = some ns) :
    (lineLoop tokens acc).1.charMappings ≠ [] := by
  have hnt : ('\n' : Char) ≠ '\t' := by decide
  induction tokens generalizing acc ns with
  | nil => simp [lineLoop] at h
  | cons tok rest ih =>
    obtain ⟨kind, so, sty⟩ := tok
    cases kind with
    | Text s =>
      simp only [lineLoop] at h ⊢
      exact ih _ _ h
    | Space =>
      simp only [lineLoop] at h ⊢
      exact ih _ _ h
    | Newline =>
      simp [lineLoop, processChar, hnt]
    | Break =>
      simp [lineLoop, processChar, hnt]

theorem nextViewLine_ne_nil (tokens : List ViewTokenWire) (ls : LineStart)
    (line : ViewLine) (rest : List ViewTokenWire) (ns : LineStart)
    (h : nextViewLine tokens ls = some (line, rest, ns)) :
    line.charMappings ≠ [] := by
  cases tokens with
  | nil => simp [nextViewLine] at h
  | cons tok toks =>
    unfold nextViewLine at h
    split at h
    · simp at h
    · split at h
      · rename_i ns2 hbrk
        simp only [Option.some.injEq, Prod.mk.injEq] at h
        obtain ⟨hline, hrest, hns⟩ := h
        subst hline
        exact lineLoop_break_ne_nil _ _ _ hbrk
      · rename_i hbrk
        split at h
        · simp at h
        · rename_i hne
          simp only [Option.some.injEq, Prod.mk.injEq] at h
          obtain ⟨hline, hrest, hns⟩ := h
          subst hline
          have hlen := lineLoop_len (tok :: toks) emptyAcc rfl
          intro hmap
          simp only [mkViewLine] at hmap
          rw [hmap] at hlen
          have htext : (lineLoop (tok :: toks) emptyAcc).1.text = [] := by
            cases htext : (lineLoop (tok :: toks) emptyAcc).1.text
            · rfl
            · rw [htext] at hlen
              simp at hlen
          rw [htext] at hne
          simp at hne

theorem assembleFuel_ne_nil (fuel : Nat) :
    ∀ (tokens : List ViewTokenWire) (ls : LineStart) (line : ViewLine),
      line ∈ assembleFuel fuel tokens ls → line.charMappings ≠ [] := by
  induction fuel with
  | zero =>
    intro tokens ls line h
    simp [assembleFuel] at h
  | succ fuel ih =>
    intro tokens ls line h
    unfold assembleFuel at h
    cases hnext : nextViewLine tokens ls with
    | none => rw [hnext] at h; simp at h
    | some lrn =>
      obtain ⟨l0, rest, ns⟩ := lrn
      rw [hnext] at h
      simp only [List.mem_cons] at h
      rcases h with rfl | h
      · exact nextViewLine_ne_nil _ _ _ _ _ hnext
      · exact ih _ _ _ h

theorem should_show_of_ne_nil (line : ViewLine)
    (h : line.charMappings ≠ []) :
    should_show_line_number line =
      (!(line.lineStart.is_continuation) && headMappingSome line) := by
  cases hc : line.lineStart.is_continuation with
  | true => simp [should_show_line_number, hc]
  | false =>
    have hne : line.charMappings.isEmpty = false := by
      cases hm : line.charMappings with
      | nil => exact absurd hm h
      | cons a l => rfl
    simp [should_show_line_number, headMappingSome, hc, hne]

/-! ## Fuel sufficiency of the line-assembly iterator -/

theorem lineLoop_rest_lt (tokens : List ViewTokenWire) (acc : LineAcc)
    (h : tokens ≠ []) :
    (lineLoop tokens acc).2.2.length < tokens.length := by
  induction tokens generalizing acc with
  | nil => exact absurd rfl h
  | cons tok rest ih =>
    obtain ⟨kind, so, sty⟩ := tok
    cases kind with
    | Text s =>
      by_cases hr : rest = []
      · subst hr; simp [lineLoop]
      · have := ih (processText s so sty 0 acc) hr
        simp only [lineLoop, List.length_cons]
        omega
    | Space =>
      by_cases hr : rest = []
      · subst hr; simp [lineLoop]
      · have := ih (processChar ' ' so sty acc) hr
        simp only [lineLoop, List.length_cons]
        omega
    | Newline => simp [lineLoop]
    | Break => simp [lineLoop]

theorem nextViewLine_rest_lt (tokens : List ViewTokenWire) (ls : LineStart)
    (line : ViewLine) (rest : List ViewTokenWire) (ns : LineStart)
    (h : nextViewLine tokens ls = some (line, rest, ns)) :
    rest.length < tokens.length := by
  cases tokens with
  | nil => simp [nextViewLine] at h
  | cons tok toks =>
    have hlt := lineLoop_rest_lt (tok :: toks) emptyAcc (by simp)
    unfold nextViewLine at h
    split at h
    · simp at h
    · split at h
      · simp only [Option.some.injEq, Prod.mk.injEq] at h
        obtain ⟨hline, hrest, hns⟩ := h
        subst hrest
        exact hlt
      · split at h
        · simp at h
        · simp only [Option.some.injEq, Prod.mk.injEq] at h
          obtain ⟨hline, hrest, hns⟩ := h
          subst hrest
          exact hlt

theorem assembleFuel_fuel_irrel (fuel1 : Nat) :
    ∀ (fuel2 : Nat) (tokens : List ViewTokenWire) (ls : LineStart),
      tokens.length < fuel1 → tokens.length < fuel2 →
      assembleFuel fuel1 tokens ls = assembleFuel fuel2 tokens ls := by
  induction fuel1 with
  | zero => intro fuel2 tokens ls h1 _; omega
  | succ fuel1 ih =>
    intro fuel2 tokens ls h1 h2
    cases fuel2 with
    | zero => omega
    | succ fuel2 =>
      unfold assembleFuel
      cases hnext : nextViewLine tokens ls with
      | none => rfl
      | some lrn =>
        obtain ⟨l0, rest, ns⟩ := lrn
        have hlt := nextViewLine_rest_lt _ _ _ _ _ hnext
        exact congrArg (List.cons l0) (ih fuel2 rest ns (by omega) (by omega))

end Fresh

/-- C3 (amended): a display line produced by line assembly always carries at
least one character, and it shows a line number iff its line-start is not
`AfterBreak` and its first character carries a source offset.  (In
particular an empty source line after a source newline shows its number —
its single character is the newline, which carries a source offset — and a
wrapped continuation never shows one.) -/
theorem C3_gutter_rule (tokens : List Fresh.ViewTokenWire)
    (line : Fresh.ViewLine) (h : line ∈ Fresh.assembleLines tokens) :
    Fresh.should_show_line_number line =
      (!(line.lineStart.is_continuation) && Fresh.headMappingSome line) :=
  Fresh.should_show_of_ne_nil line (Fresh.assembleFuel_ne_nil _ _ _ _ h)

/-- Witness for C3 at the concrete stream `[Text "a" at 0, Newline at 1]`. -/
theorem C3_gutter_rule_witness :
    (⟨['a', '\n'], [some 0, some 1], [none, none], [], .Beginning, true⟩ :
        Fresh.ViewLine) ∈ Fresh.assembleLines Fresh.demoToksC3w ∧
    Fresh.should_show_line_number
        ⟨['a', '\n'], [some 0, some 1], [none, none], [], .Beginning, true⟩ =
      (!((⟨['a', '\n'], [some 0, some 1], [none, none], [], .Beginning,
          true⟩ : Fresh.ViewLine).lineStart.is_continuation) &&
        Fresh.headMappingSome
          ⟨['a', '\n'], [some 0, some 1], [none, none], [], .Beginning,
            true⟩) :=
  ⟨by decide, C3_gutter_rule Fresh.demoToksC3w _ (by decide)⟩

namespace Fresh

/-! ## Lemmas on the layout position maps (claim C4) -/

theorem get?_some_lt {α : Type} {l : List α} {i : Nat} {x : α}
    (h : l.get? i = some x) : i < l.length := by
  by_contra hc
  push_neg at hc
  rw [List.get?_eq_none.mpr hc] at h
  exact Option.noConfusion h

theorem firstSome_of_mem {l : List (Option Nat)} {b : Nat}
    (h : some b ∈ l) : ∃ f, firstSome l = some f := by
  induction l with
  | nil => simp at h
  | cons x rest ih =>
    cases x with
    | some c => exact ⟨c, rfl⟩
    | none =>
      simp only [List.mem_cons] at h
      rcases h with h | h
      · exact Option.noConfusion h
      · exact ih h

theorem firstSome_mem {l : List (Option Nat)} {f : Nat}
    (h : firstSome l = some f) : some f ∈ l := by
  induction l with
  | nil => simp [firstSome] at h
  | cons x rest ih =>
    cases x with
    | some c =>
      unfold firstSome at h
      injection h with h
      subst h
      exact List.mem_cons_self _ _
    | none => exact List.mem_cons_of_mem _ (ih h)

theorem mem_filterMap_id {l : List (Option Nat)} {b : Nat} :
    b ∈ l.filterMap id ↔ some b ∈ l := by
  simp [List.mem_filterMap]

theorem firstIsMin_le (line : ViewLine) (f b : Nat)
    (hmin : firstIsMin line = true)
    (hf : firstSome line.charMappings = some f)
    (hb : some b ∈ line.charMappings) : f ≤ b := by
  unfold firstIsMin at hmin
  rw [hf] at hmin
  have hall := List.all_eq_true.mp hmin
  have hbmem : b ∈ line.charMappings.filterMap id := mem_filterMap_id.mpr hb
  simpa using hall b hbmem

theorem beforeLine_lt (li lj : ViewLine) (fj b : Nat)
    (hbl : beforeLine li lj = true)
    (hfj : firstSome lj.charMappings = some fj)
    (hb : some b ∈ li.charMappings) : b < fj := by
  unfold beforeLine at hbl
  rw [hfj] at hbl
  have hall := List.all_eq_true.mp hbl
  have hbmem : b ∈ li.charMappings.filterMap id := mem_filterMap_id.mpr hb
  simpa using hall b hbmem

theorem orderedLines_min {lines : List ViewLine} {i : Nat} {li : ViewLine}
    (h : orderedLines lines = true) (hi : lines.get? i = some li) :
    firstIsMin li = true := by
  induction lines generalizing i with
  | nil => simp at hi
  | cons l rest ih =>
    unfold orderedLines at h
    simp only [Bool.and_eq_true] at h
    obtain ⟨⟨h1, _⟩, h3⟩ := h
    cases i with
    | zero =>
      simp only [List.get?] at hi
      injection hi with hi
      subst hi
      exact h1
    | succ i => exact ih h3 (by simpa using hi)

theorem orderedLines_before {lines : List ViewLine} {i j : Nat}
    {li lj : ViewLine} (h : orderedLines lines = true) (hij : i < j)
    (hi : lines.get? i = some li) (hj : lines.get? j = some lj) :
    beforeLine li lj = true := by
  induction lines generalizing i j with
  | nil => simp at hi
  | cons l rest ih =>
    unfold orderedLines at h
    simp only [Bool.and_eq_true] at h
    obtain ⟨⟨_, h2⟩, h3⟩ := h
    cases i with
    | zero =>
      simp only [List.get?] at hi
      injection hi with hi
      subst hi
      cases j with
      | zero => omega
      | succ j =>
        have hlj : lj ∈ rest := List.get?_mem (by simpa using hj)
        exact List.all_eq_true.mp h2 lj hlj
    | succ i =>
      cases j with
      | zero => omega
      | succ j =>
        exact ih h3 (Nat.lt_of_succ_lt_succ hij) (by simpa using hi)
          (by simpa using hj)

theorem buildByteToLine_mem_intro (lines : List ViewLine) (n k : Nat)
    (li : ViewLine) (f : Nat) (hk : lines.get? k = some li)
    (hf : firstSome li.charMappings = some f) :
    (f, n + k) ∈ buildByteToLine n lines := by
  induction lines generalizing n k with
  | nil => simp at hk
  | cons l rest ih =>
    cases k with
    | zero =>
      simp only [List.get?] at hk
      injection hk with hk
      subst hk
      simp [buildByteToLine, hf]
    | succ k =>
      have hmem := ih (n + 1) k (by simpa using hk)
      unfold buildByteToLine
      have harith : n + (k + 1) = (n + 1) + k := by omega
      rw [harith]
      exact List.mem_append_right _ hmem

theorem buildByteToLine_mem_elim (lines : List ViewLine) (n g j : Nat)
    (h : (g, j) ∈ buildByteToLine n lines) :
    n ≤ j ∧ ∃ lj, lines.get? (j - n) = some lj ∧
      firstSome lj.charMappings = some g := by
  induction lines generalizing n with
  | nil => simp [buildByteToLine] at h
  | cons l rest ih =>
    unfold buildByteToLine at h
    rw [List.mem_append] at h
    rcases h with h | h
    · cases hfs : firstSome l.charMappings with
      | some f =>
        rw [hfs] at h
        simp only [List.mem_singleton, Prod.mk.injEq] at h
        obtain ⟨rfl, rfl⟩ := h
        exact ⟨Nat.le_refl _, l, by simp, hfs⟩
      | none => rw [hfs] at h; simp at h
    · obtain ⟨hn, lj, hget, hfs⟩ := ih (n + 1) h
      refine ⟨by omega, lj, ?_, hfs⟩
      have harith : j - n = (j - (n + 1)) + 1 := by omega
      rw [harith]
      simpa using hget

theorem lookupLE_mem (b : Nat) (l : List (Nat × Nat)) (kv : Nat × Nat)
    (h : lookupLE b l = some kv) : kv ∈ l ∧ kv.1 ≤ b := by
  induction l generalizing kv with
  | nil => simp [lookupLE] at h
  | cons x rest ih =>
    unfold lookupLE at h
    cases hr : lookupLE b rest with
    | none =>
      simp only [hr] at h
      split at h
      · rename_i hxb
        injection h with h
        subst h
        exact ⟨List.mem_cons_self _ _, hxb⟩
      · exact Option.noConfusion h
    | some best =>
      simp only [hr] at h
      obtain ⟨hmem, hle⟩ := ih best hr
      split at h
      · rename_i hxb
        split at h
        · injection h with h
          subst h
          exact ⟨List.mem_cons_self _ _, hxb⟩
        · injection h with h
          subst h
          exact ⟨List.mem_cons_of_mem _ hmem, hle⟩
      · injection h with h
        subst h
        exact ⟨List.mem_cons_of_mem _ hmem, hle⟩

theorem lookupLE_eq (b : Nat) (l : List (Nat × Nat)) (e : Nat × Nat)
    (he : e ∈ l) (hle : e.1 ≤ b)
    (hmax : ∀ e2 ∈ l, e2.1 ≤ b → e2.1 < e.1 ∨ e2 = e) :
    lookupLE b l = some e := by
  induction l with
  | nil => simp at he
  | cons x rest ih =>
    have hmaxr : ∀ e2 ∈ rest, e2.1 ≤ b → e2.1 < e.1 ∨ e2 = e :=
      fun e2 h2 hle2 => hmax e2 (List.mem_cons_of_mem _ h2) hle2
    unfold lookupLE
    cases hr : lookupLE b rest with
    | none =>
      have hex : e = x := by
        rcases List.mem_cons.mp he with h | h
        · exact h
        · exact absurd (ih h hmaxr) (by simp [hr])
      subst hex
      simp [hle]
    | some best =>
      obtain ⟨hbmem, hble⟩ := lookupLE_mem b rest best hr
      rcases hmax best (List.mem_cons_of_mem _ hbmem) hble with hblt | hbeq
      · rcases List.mem_cons.mp he with hex | herest
        · subst hex
          simp [hle, hblt]
        · have := ih herest hmaxr
          rw [hr] at this
          injection this with this
          subst this
          exact absurd hblt (lt_irrefl _)
      · subst hbeq
        rcases List.mem_cons.mp he with hex | herest
        · subst hex
          by_cases hxb : best.1 ≤ b <;> simp [hxb]
        · by_cases hxb : x.1 ≤ b
          · rcases hmax x (List.mem_cons_self _ _) hxb with hxlt | hxe
            · have hnlt : ¬ best.1 < x.1 := by omega
              simp [hxb, hnlt]
            · subst hxe
              simp [hxb]
          · simp [hxb]

theorem findIndex_of_mem {α : Type} (p : α → Bool) (l : List α) (x : α)
    (hx : x ∈ l) (hp : p x = true) : ∃ i, findIndex p l = some i := by
  induction l with
  | nil => simp at hx
  | cons y rest ih =>
    by_cases hy : p y = true
    · exact ⟨0, by simp [findIndex, hy]⟩
    · have hxr : x ∈ rest := by
        rcases List.mem_cons.mp hx with rfl | h
        · exact absurd hp hy
        · exact h
      obtain ⟨i, hi⟩ := ih hxr
      exact ⟨i + 1, by simp [findIndex, hy, hi]⟩

theorem findIndex_spec {α : Type} (p : α → Bool) (l : List α) (i : Nat)
    (h : findIndex p l = some i) :
    ∃ x, l.get? i = some x ∧ p x = true := by
  induction l generalizing i with
  | nil => simp [findIndex] at h
  | cons y rest ih =>
    unfold findIndex at h
    by_cases hy : p y = true
    · rw [if_pos hy] at h
      injection h with h
      subst h
      exact ⟨y, by simp, hy⟩
    · rw [if_neg hy] at h
      cases hr : findIndex p rest with
      | none => rw [hr] at h; simp at h
      | some j =>
        rw [hr] at h
        simp at h
        subst h
        obtain ⟨x, hx, hpx⟩ := ih j hr
        exact ⟨x, by simpa using hx, hpx⟩

end Fresh

/-- C4 (amended): for a layout over source-ordered view lines — within each
line the first source byte is the minimum mapped byte, and every mapped byte
of a line lies strictly below the first source byte of each later line — the
round trip `view_position_to_source_byte ∘ source_byte_to_view_position`
returns `some b` for every source byte `b` with a character mapping. -/
theorem C4_roundtrip (lines : List Fresh.ViewLine) (b i : Nat)
    (li : Fresh.ViewLine)
    (hord : Fresh.orderedLines lines = true)
    (hi : lines.get? i = some li)
    (hb : some b ∈ li.charMappings) :
    Fresh.roundTrip (Fresh.Layout.new lines) b = some b := by
  obtain ⟨f, hf⟩ := Fresh.firstSome_of_mem hb
  have hfmem : (f, i) ∈ Fresh.buildByteToLine 0 lines := by
    simpa using Fresh.buildByteToLine_mem_intro lines 0 i li f hi hf
  have hfle : f ≤ b :=
    Fresh.firstIsMin_le li f b (Fresh.orderedLines_min hord hi) hf hb
  have hmax : ∀ e2 ∈ Fresh.buildByteToLine 0 lines, e2.1 ≤ b →
      e2.1 < (f, i).1 ∨ e2 = (f, i) := by
    rintro ⟨g, j⟩ he2 hle2
    obtain ⟨-, lj, hj, hg⟩ := Fresh.buildByteToLine_mem_elim lines 0 g j he2
    simp only [Nat.sub_zero] at hj
    rcases Nat.lt_trichotomy j i with hji | rfl | hij
    · left
      have hbl := Fresh.orderedLines_before hord hji hj hi
      exact Fresh.beforeLine_lt lj li f g hbl hf (Fresh.firstSome_mem hg)
    · right
      rw [hi] at hj
      injection hj with hj
      subst hj
      rw [hf] at hg
      injection hg with hg
      subst hg
      rfl
    · exfalso
      have hbl := Fresh.orderedLines_before hord hij hi hj
      have hblt := Fresh.beforeLine_lt li lj g b hbl hg hb
      have hgb : g ≤ b := hle2
      omega
  have hlook : Fresh.lookupLE b (Fresh.buildByteToLine 0 lines) = some (f, i) :=
    Fresh.lookupLE_eq b _ (f, i) hfmem hfle hmax
  obtain ⟨col, hcol⟩ :=
    Fresh.findIndex_of_mem (fun m => decide (m = some b)) li.charMappings
      (some b) hb (by simp)
  obtain ⟨x, hx, hpx⟩ := Fresh.findIndex_spec _ _ _ hcol
  have hxb : x = some b := of_decide_eq_true hpx
  subst hxb
  have hcollt : col < li.charMappings.length := Fresh.get?_some_lt hx
  simp only [Fresh.roundTrip, Fresh.Layout.source_byte_to_view_position,
    Fresh.Layout.new, hlook, hi, hcol,
    Fresh.Layout.view_position_to_source_byte, if_pos hcollt, hx,
    Option.getD_some]

/-- Witness for C4 at the in-order stream `demoToksC4w` and source byte 1. -/
theorem C4_roundtrip_witness :
    Fresh.orderedLines (Fresh.assembleLines Fresh.demoToksC4w) = true ∧
    Fresh.roundTrip
      (Fresh.Layout.new (Fresh.assembleLines Fresh.demoToksC4w)) 1 =
      some 1 :=
  ⟨by decide,
   C4_roundtrip (Fresh.assembleLines Fresh.demoToksC4w) 1 0
     ⟨['a', 'b', '\n'], [some 0, some 1, some 2], [none, none, none], [],
       .Beginning, true⟩
     (by decide) (by decide) (by decide)⟩

namespace Fresh

/-! ## Lemmas on the buffer map (claim C7) -/

theorem lookupA_isSome_of_mem {α : Type} {l : List (Nat × α)} {kv : Nat × α}
    (h : kv ∈ l) : (lookupA kv.1 l).isSome = true := by
  induction l with
  | nil => simp at h
  | cons x rest ih =>
    unfold lookupA
    by_cases hk : x.1 = kv.1
    · simp [hk]
    · rcases List.mem_cons.mp h with rfl | h
      · exact absurd rfl hk
      · simp [hk, ih h]

theorem lookupA_ne_nil {α : Type} {l : List (Nat × α)} {k : Nat} {v : α}
    (h : lookupA k l = some v) : l ≠ [] := by
  intro hl
  subst hl
  simp [lookupA] at h

theorem removeKey_eq_of_not_mem {α : Type} {l : List (Nat × α)} {k : Nat}
    (h : k ∉ l.map Prod.fst) : removeKey k l = l := by
  unfold removeKey
  apply List.filter_eq_self.mpr
  intro a ha
  have hne : a.1 ≠ k := by
    intro heq
    apply h
    rw [← heq]
    exact List.mem_map_of_mem Prod.fst ha
  simpa using hne

theorem removeKey_length {α : Type} {l : List (Nat × α)} {k : Nat} {v : α}
    (hkeys : (l.map Prod.fst).Nodup) (h : lookupA k l = some v) :
    (removeKey k l).length + 1 = l.length := by
  induction l with
  | nil => simp [lookupA] at h
  | cons x rest ih =>
    simp only [List.map_cons, List.nodup_cons] at hkeys
    obtain ⟨hx, hrest⟩ := hkeys
    unfold lookupA at h
    by_cases hk : x.1 = k
    · have hnot : k ∉ rest.map Prod.fst := by rw [← hk]; exact hx
      have h1 : removeKey k (x :: rest) = removeKey k rest := by
        unfold removeKey
        rw [List.filter_cons]
        simp [hk]
      rw [h1, removeKey_eq_of_not_mem hnot]
      simp
    · rw [if_neg hk] at h
      have h2 : removeKey k (x :: rest) = x :: removeKey k rest := by
        unfold removeKey
        rw [List.filter_cons]
        simp [hk]
      rw [h2]
      simp only [List.length_cons]
      have := ih hrest h
      omega

theorem head?_mem {α : Type} {l : List α} {x : α} (h : l.head? = some x) :
    x ∈ l := by
  cases l with
  | nil => simp at h
  | cons y rest =>
    simp only [List.head?_cons] at h
    injection h with h
    subst h
    exact List.mem_cons_self _ _

end Fresh

/-- C7: for a present buffer id, `close_buffer` errors iff the buffer is the
last one or has unsaved modifications, leaving the editor untouched; on
success the buffer and its event log are removed (clipboard and status
unchanged), and if the closed buffer was active some remaining buffer
becomes active, otherwise the active buffer is unchanged. -/
theorem C7_close_buffer (ed : Fresh.Editor) (id : Nat)
    (st : Fresh.EditorState)
    (hpresent : Fresh.lookupA id ed.buffers = some st)
    (hkeys : (ed.buffers.map Prod.fst).Nodup) :
    (Fresh.exceptIsError (ed.close_buffer id).2 = true ↔
      ed.buffers.length = 1 ∨ st.modified = true) ∧
    (Fresh.exceptIsError (ed.close_buffer id).2 = true →
      (ed.close_buffer id).1 = ed) ∧
    (Fresh.exceptIsError (ed.close_buffer id).2 = false →
      (ed.close_buffer id).1.buffers = Fresh.removeKey id ed.buffers ∧
      (ed.close_buffer id).1.eventLogs = Fresh.removeKey id ed.eventLogs ∧
      (ed.close_buffer id).1.clipboard = ed.clipboard ∧
      (ed.close_buffer id).1.statusMessage = ed.statusMessage ∧
      (ed.activeBuffer = id →
        (Fresh.lookupA (ed.close_buffer id).1.activeBuffer
          (Fresh.removeKey id ed.buffers)).isSome = true) ∧
      (ed.activeBuffer ≠ id →
        (ed.close_buffer id).1.activeBuffer = ed.activeBuffer)) := by
  by_cases hlen : ed.buffers.length = 1
  · refine ⟨?_, ?_, ?_⟩ <;>
      simp [Fresh.Editor.close_buffer, hlen, Fresh.exceptIsError]
  · by_cases hmod : st.modified = true
    · refine ⟨?_, ?_, ?_⟩ <;>
        simp [Fresh.Editor.close_buffer, hlen, hmod, hpresent,
          Fresh.exceptIsError]
    · have hne : ed.buffers ≠ [] := Fresh.lookupA_ne_nil hpresent
      have hpos : 0 < ed.buffers.length := List.length_pos.mpr hne
      have hrk := Fresh.removeKey_length hkeys hpresent
      have hcb : ed.close_buffer id =
          ({ ed with
              buffers := Fresh.removeKey id ed.buffers
              eventLogs := Fresh.removeKey id ed.eventLogs
              activeBuffer :=
                if ed.activeBuffer = id then
                  match (Fresh.removeKey id ed.buffers).head? with
                  | some kv => kv.1
                  | none => 0
                else ed.activeBuffer }, Except.ok ()) := by
        simp [Fresh.Editor.close_buffer, hlen, hmod, hpresent]
      refine ⟨?_, ?_, ?_⟩
      · rw [hcb]
        simp [Fresh.exceptIsError, hlen, hmod]
      · rw [hcb]
        simp [Fresh.exceptIsError]
      · intro _
        refine ⟨by rw [hcb], by rw [hcb], by rw [hcb], by rw [hcb], ?_, ?_⟩
        · intro hact
          rw [hcb]
          simp only [hact, if_true]
          cases hhd : (Fresh.removeKey id ed.buffers).head? with
          | none =>
            exfalso
            have hnil : Fresh.removeKey id ed.buffers = [] :=
              List.head?_eq_none_iff.mp hhd
            rw [hnil] at hrk
            simp at hrk
            omega
          | some kv =>
            simp only [hhd]
            exact Fresh.lookupA_isSome_of_mem (Fresh.head?_mem hhd)
        · intro hact
          rw [hcb]
          simp [hact]

/-- Witness for C7: closing the clean, inactive buffer 1 of `demoEditor`
succeeds. -/
theorem C7_close_buffer_witness :
    Fresh.lookupA 1 Fresh.demoEditor.buffers =
      some ⟨[], [(0, ⟨0, none⟩)], 0, false⟩ ∧
    (Fresh.exceptIsError (Fresh.demoEditor.close_buffer 1).2 = true ↔
      Fresh.demoEditor.buffers.length = 1 ∨
      (⟨[], [(0, ⟨0, none⟩)], 0, false⟩ : Fresh.EditorState).modified =
        true) :=
  ⟨by decide,
   (C7_close_buffer Fresh.demoEditor 1 ⟨[], [(0, ⟨0, none⟩)], 0, false⟩
     (by decide) (by decide)).1⟩

namespace Fresh

/-! ## Lemmas on diagnostic application (claim C5) -/

theorem foldl_removeById (ids : List (List Char)) (ovs : List Overlay) :
    ids.foldl (fun o i => removeById i o) ovs =
      ovs.filter (fun o => ids.all (fun i => decide (o.id ≠ some i))) := by
  induction ids generalizing ovs with
  | nil => simp
  | cons i ids ih =>
    simp only [List.foldl_cons]
    rw [ih]
    unfold removeById
    rw [List.filter_filter]
    congr 1
    funext o
    simp [List.all_cons, Bool.and_comm]

theorem mem_collectDiagnosticIds (ovs : List Overlay) (s : List Char) :
    s ∈ collectDiagnosticIds ovs ↔
      ∃ o ∈ ovs, o.id = some s ∧ lspMarker.isPrefixOf s = true := by
  unfold collectDiagnosticIds
  rw [List.mem_filterMap]
  constructor
  · rintro ⟨o, ho, hf⟩
    refine ⟨o, ho, ?_⟩
    cases hid : o.id with
    | none =>
      simp only [hid] at hf
      exact Option.noConfusion hf
    | some t =>
      simp only [hid] at hf
      by_cases hp : lspMarker.isPrefixOf t = true
      · rw [if_pos hp] at hf
        injection hf with hf
        subst hf
        exact ⟨rfl, hp⟩
      · rw [if_neg hp] at hf
        exact Option.noConfusion hf
  · rintro ⟨o, ho, hid, hp⟩
    refine ⟨o, ho, ?_⟩
    simp only [hid]
    rw [if_pos hp]

theorem survives_iff (ovs : List Overlay) (o : Overlay) (ho : o ∈ ovs) :
    (collectDiagnosticIds ovs).all (fun i => decide (o.id ≠ some i)) =
      !(isDiagnosticId o) := by
  cases hid : o.id with
  | none =>
    have hall : ∀ i ∈ collectDiagnosticIds ovs,
        decide ((none : Option (List Char)) ≠ some i) = true := by
      intro i _
      simp
    rw [List.all_eq_true.mpr hall]
    simp [isDiagnosticId, hid]
  | some s =>
    by_cases hp : lspMarker.isPrefixOf s = true
    · have hsmem : s ∈ collectDiagnosticIds ovs :=
        (mem_collectDiagnosticIds _ _).mpr ⟨o, ho, hid, hp⟩
      have hLHS : ((collectDiagnosticIds ovs).all
          (fun i => decide ((some s : Option (List Char)) ≠ some i))) =
            false := by
        cases hB : (collectDiagnosticIds ovs).all
            (fun i => decide ((some s : Option (List Char)) ≠ some i)) with
        | false => rfl
        | true =>
          have := List.all_eq_true.mp hB s hsmem
          simp at this
      rw [hLHS]
      simp [isDiagnosticId, hid, hp]
    · have hall : ∀ i ∈ collectDiagnosticIds ovs,
          decide ((some s : Option (List Char)) ≠ some i) = true := by
        intro i hi
        obtain ⟨o2, -, -, hp2⟩ := (mem_collectDiagnosticIds _ _).mp hi
        simp only [decide_eq_true_eq, ne_eq, Option.some.injEq]
        intro heq
        rw [heq] at hp
        exact hp hp2
      rw [List.all_eq_true.mpr hall]
      simp [isDiagnosticId, hid, hp]

theorem removal_pass (ovs : List Overlay) :
    (collectDiagnosticIds ovs).foldl (fun o i => removeById i o) ovs =
      ovs.filter (fun o => !(isDiagnosticId o)) := by
  rw [foldl_removeById]
  exact List.filter_congr (fun o ho => survives_iff ovs o ho)

theorem foldl_addOverlays (l : List (Nat × Diagnostic)) (buffer : LspBuffer)
    (theme : Theme) (init : List Overlay) :
    l.foldl (fun ovs idxd =>
      match diagnostic_to_overlay idxd.2 buffer theme with
      | some r => ovs ++ [mkOverlay r idxd.1 idxd.2.message]
      | none => ovs) init =
    init ++ l.filterMap (fun idxd =>
      (diagnostic_to_overlay idxd.2 buffer theme).map
        (fun r => mkOverlay r idxd.1 idxd.2.message)) := by
  induction l generalizing init with
  | nil => simp
  | cons x xs ih =>
    simp only [List.foldl_cons, List.filterMap_cons]
    cases hconv : diagnostic_to_overlay x.2 buffer theme with
    | none =>
      simp only [hconv, Option.map_none]
      exact ih init
    | some r =>
      simp only [hconv, Option.map_some]
      rw [ih]
      simp

theorem mem_foldl_hsInsert (l acc : List Nat) (x : Nat) :
    x ∈ l.foldl (fun m e => hsInsert e m) acc ↔ x ∈ acc ∨ x ∈ l := by
  induction l generalizing acc with
  | nil => simp
  | cons e es ih =>
    simp only [List.foldl_cons]
    rw [ih, mem_hsInsert]
    simp only [List.mem_cons]
    tauto

theorem nodup_foldl_hsInsert (l acc : List Nat) (h : acc.Nodup) :
    (l.foldl (fun m e => hsInsert e m) acc).Nodup := by
  induction l generalizing acc with
  | nil => simpa
  | cons e es ih => exact ih _ (nodup_hsInsert e acc h)

theorem mem_collectLines (l : List (Nat × Diagnostic)) (buffer : LspBuffer)
    (theme : Theme) (acc : List Nat) (x : Nat) :
    x ∈ l.foldl (fun acc idxd =>
        if (diagnostic_to_overlay idxd.2 buffer theme).isSome then
          hsInsert idxd.2.startLine acc
        else acc) acc ↔
      x ∈ acc ∨ ∃ idxd ∈ l,
        (diagnostic_to_overlay idxd.2 buffer theme).isSome = true ∧
        idxd.2.startLine = x := by
  induction l generalizing acc with
  | nil => simp
  | cons y ys ih =>
    simp only [List.foldl_cons, List.mem_cons, exists_eq_or_imp]
    by_cases hy : (diagnostic_to_overlay y.2 buffer theme).isSome = true
    · rw [if_pos hy, ih, mem_hsInsert]
      constructor
      · rintro ((hacc | rfl) | ⟨idxd, hmem, hc, hl⟩)
        · exact Or.inl hacc
        · exact Or.inr (Or.inl ⟨hy, rfl⟩)
        · exact Or.inr (Or.inr ⟨idxd, hmem, hc, hl⟩)
      · rintro (hacc | (⟨-, hl⟩ | ⟨idxd, hmem, hc, hl⟩))
        · exact Or.inl (Or.inl hacc)
        · exact Or.inl (Or.inr hl.symm)
        · exact Or.inr ⟨idxd, hmem, hc, hl⟩
    · rw [if_neg hy, ih]
      constructor
      · rintro (hacc | ⟨idxd, hmem, hc, hl⟩)
        · exact Or.inl hacc
        · exact Or.inr (Or.inr ⟨idxd, hmem, hc, hl⟩)
      · rintro (hacc | (⟨hc, -⟩ | ⟨idxd, hmem, hc, hl⟩))
        · exact Or.inl hacc
        · exact absurd hc hy
        · exact Or.inr ⟨idxd, hmem, hc, hl⟩

theorem mem_sortInsert (x y : Nat × Diagnostic)
    (l : List (Nat × Diagnostic)) :
    y ∈ sortInsert x l ↔ y = x ∨ y ∈ l := by
  induction l with
  | nil => simp [sortInsert]
  | cons z zs ih =>
    unfold sortInsert
    by_cases hc : x.2.startLine ≤ z.2.startLine
    · rw [if_pos hc]
      simp [List.mem_cons]
    · rw [if_neg hc]
      simp only [List.mem_cons, ih]
      tauto

theorem mem_sortByStartLine (y : Nat × Diagnostic)
    (l : List (Nat × Diagnostic)) :
    y ∈ sortByStartLine l ↔ y ∈ l := by
  induction l with
  | nil => simp [sortByStartLine]
  | cons x xs ih =>
    unfold sortByStartLine
    rw [mem_sortInsert]
    simp only [List.mem_cons, ih]

theorem mem_enumFrom_snd {α : Type} {l : List α} {n i : Nat} {d : α}
    (h : (i, d) ∈ enumFrom n l) : d ∈ l := by
  induction l generalizing n with
  | nil => simp [enumFrom] at h
  | cons x xs ih =>
    unfold enumFrom at h
    rcases List.mem_cons.mp h with heq | h
    · simp only [Prod.mk.injEq] at heq
      obtain ⟨-, rfl⟩ := heq
      exact List.mem_cons_self _ _
    · exact List.mem_cons_of_mem _ (ih h)

theorem exists_enumFrom_of_mem {α : Type} {l : List α} {d : α}
    (h : d ∈ l) (n : Nat) : ∃ i, (i, d) ∈ enumFrom n l := by
  induction l generalizing n with
  | nil => simp at h
  | cons x xs ih =>
    rcases List.mem_cons.mp h with rfl | h
    · exact ⟨n, List.mem_cons_self _ _⟩
    · obtain ⟨i, hi⟩ := ih h (n + 1)
      exact ⟨i, List.mem_cons_of_mem _ hi⟩

theorem isPrefixOf_append (s t : List Char) :
    s.isPrefixOf (s ++ t) = true := by
  induction s with
  | nil => simp [List.isPrefixOf]
  | cons c cs ih => simp [List.isPrefixOf, ih]

theorem mkDiagnosticOverlays_diagnostic (buffer : LspBuffer) (theme : Theme)
    (diags : List Diagnostic) (o : Overlay)
    (ho : o ∈ mkDiagnosticOverlays buffer theme diags) :
    isDiagnosticId o = true := by
  unfold mkDiagnosticOverlays at ho
  rw [List.mem_filterMap] at ho
  obtain ⟨idxd, -, hmap⟩ := ho
  simp only [Option.map_eq_some'] at hmap
  obtain ⟨r, hconv, hmk⟩ := hmap
  subst hmk
  simp [isDiagnosticId, mkOverlay, isPrefixOf_append]

end Fresh

/-- C5: applying a diagnostic set removes exactly the overlays whose id
starts with the reserved marker (others are preserved in place), then
appends the new diagnostic overlays (all carrying reserved ids); the margin
indicators are rebuilt from scratch as exactly one indicator per distinct
start line of a convertible diagnostic. -/
theorem C5_apply_diagnostics (st : Fresh.LspEditorState)
    (diags : List Fresh.Diagnostic) (theme : Fresh.Theme) :
    (Fresh.apply_diagnostics_to_state st diags theme).overlays =
      st.overlays.filter (fun o => !(Fresh.isDiagnosticId o)) ++
        Fresh.mkDiagnosticOverlays st.buffer theme diags ∧
    (∀ o ∈ Fresh.mkDiagnosticOverlays st.buffer theme diags,
      Fresh.isDiagnosticId o = true) ∧
    (Fresh.apply_diagnostics_to_state st diags theme).margins.Nodup ∧
    (∀ l : Nat,
      l ∈ (Fresh.apply_diagnostics_to_state st diags theme).margins ↔
      ∃ d ∈ diags,
        (Fresh.diagnostic_to_overlay d st.buffer theme).isSome = true ∧
        d.startLine = l) := by
  refine ⟨?_, fun o ho => Fresh.mkDiagnosticOverlays_diagnostic _ _ _ o ho,
    ?_, ?_⟩
  · show (Fresh.sortByStartLine (Fresh.enumFrom 0 diags)).foldl _
        ((Fresh.collectDiagnosticIds st.overlays).foldl _ st.overlays) = _
    rw [Fresh.removal_pass, Fresh.foldl_addOverlays]
    rfl
  · exact Fresh.nodup_foldl_hsInsert _ _ List.nodup_nil
  · intro l
    show l ∈ List.foldl _ [] _ ↔ _
    rw [Fresh.mem_foldl_hsInsert]
    simp only [List.not_mem_nil, false_or]
    rw [Fresh.mem_collectLines]
    simp only [List.not_mem_nil, false_or]
    constructor
    · rintro ⟨idxd, hmem, hc, hl⟩
      refine ⟨idxd.2, ?_, hc, hl⟩
      exact Fresh.mem_enumFrom_snd
        (show (idxd.1, idxd.2) ∈ Fresh.enumFrom 0 diags from
          (Fresh.mem_sortByStartLine _ _).mp hmem)
    · rintro ⟨d, hd, hc, hl⟩
      obtain ⟨i, hi⟩ := Fresh.exists_enumFrom_of_mem hd 0
      exact ⟨(i, d), (Fresh.mem_sortByStartLine _ _).mpr hi, hc, hl⟩

/-- Witness for C5 at `demoLspState` with `demoDiags`: the overlay equation,
a reserved id on a concrete inserted overlay, and line 2's indicator. -/
theorem C5_apply_diagnostics_witness :
    (Fresh.apply_diagnostics_to_state Fresh.demoLspState Fresh.demoDiags
        Fresh.demoTheme).overlays =
      Fresh.demoLspState.overlays.filter
        (fun o => !(Fresh.isDiagnosticId o)) ++
        Fresh.mkDiagnosticOverlays Fresh.demoLspState.buffer Fresh.demoTheme
          Fresh.demoDiags ∧
    Fresh.isDiagnosticId
      (Fresh.mkOverlay (204, 206, .Background 12, 50) 0 "w") = true ∧
    (2 ∈ (Fresh.apply_diagnostics_to_state Fresh.demoLspState
        Fresh.demoDiags Fresh.demoTheme).margins ↔
      ∃ d ∈ Fresh.demoDiags,
        (Fresh.diagnostic_to_overlay d Fresh.demoLspState.buffer
          Fresh.demoTheme).isSome = true ∧ d.startLine = 2) :=
  ⟨(C5_apply_diagnostics Fresh.demoLspState Fresh.demoDiags
      Fresh.demoTheme).1,
   (C5_apply_diagnostics Fresh.demoLspState Fresh.demoDiags
      Fresh.demoTheme).2.1
     (Fresh.mkOverlay (204, 206, .Background 12, 50) 0 "w") (by decide),
   (C5_apply_diagnostics Fresh.demoLspState Fresh.demoDiags
      Fresh.demoTheme).2.2.2 2⟩
